import Mathlib

/-!
Verification of the batch Markdown-to-notebook converter (`convert.py`).

The script walks a directory tree (`os.walk`), selects files whose name ends
in `.md`, derives the output path with `os.path.splitext(p)[0] + ".ipynb"`,
prints an informational line, opens the destination for writing and runs
`notedown <md_path>` with its standard output redirected into it.

We shallowly embed the script: Python strings become `List Char`, the
filesystem becomes an inductive tree of named entries, the side effects of
one run become an explicit event trace plus a path-indexed file store, and
the external tool, a failing `open`, and a failing `subprocess.run` become
oracles the run is parameterised by.
-/

/-- Python strings are modelled as lists of characters. -/
abbrev Str := List Char

/-- Coerce a Lean string literal to the model's string type. -/
def str (s : String) : Str := s.data

/-- Python `s.endswith(suffix)`: `suffix` is a suffix of `s`. -/
def endswith (s suffix : Str) : Bool :=
  decide (suffix.length ≤ s.length) &&
    decide (s.drop (s.length - suffix.length) = suffix)

/-- The reversed basename of a path: the characters after the last `/`,
collected by scanning the reversed path up to the first `/`. -/
def revBasename (p : Str) : Str := p.reverse.takeWhile (fun c => decide (c ≠ '/'))

/-- Length of the extension `os.path.splitext` splits off, computed on the
reversed basename.  CPython (`genericpath._splitext`) splits at the last `.`
of the basename unless every character of the basename before that dot is
itself a `.` (so dotfiles like `.md` have no extension). -/
def extLen (rb : Str) : Nat :=
  if rb.dropWhile (fun c => decide (c ≠ '.')) = [] then 0
  else if (rb.dropWhile (fun c => decide (c ≠ '.'))).tail.any (fun c => decide (c ≠ '.')) then
    (rb.takeWhile (fun c => decide (c ≠ '.'))).length + 1
  else 0

/-- Python `os.path.splitext(p)` (POSIX flavour): split `p` into root and
extension. -/
def splitext (p : Str) : Str × Str :=
  (p.take (p.length - extLen (revBasename p)),
   p.drop (p.length - extLen (revBasename p)))

/-- Python `os.path.join(a, b)` (POSIX flavour, one argument): `b` wins if it
is absolute; otherwise a `/` separates `a` and `b` unless `a` is empty or
already ends in `/`. -/
def joinP (a b : Str) : Str :=
  if b.take 1 = ['/'] then b
  else if a = [] then a ++ b
  else if a.getLast? = some '/' then a ++ b
  else a ++ '/' :: b

/-- The prefix `joinP a` puts before a non-absolute second component:
nothing when `a` is empty, `a` itself when it already ends in `/`, and
`a` followed by `/` otherwise. -/
def dirPre (a : Str) : Str :=
  if a = [] then [] else if a.getLast? = some '/' then a else a ++ ['/']

/-- A filesystem entry: a regular file or a directory with children.
Names are single path components (no `/`). -/
inductive Entry where
  | file (name : Str) : Entry
  | dir (name : Str) (children : List Entry) : Entry

/-- The regular-file names directly inside a list of entries, in order. -/
def filesOf : List Entry → List Str
  | [] => []
  | .file n :: es => n :: filesOf es
  | .dir _ _ :: es => filesOf es

mutual
/-- `os.walk` restricted to one entry: a file yields nothing, a directory
yields its own triple and, top-down, those of its subtree. -/
def walkEntry (path : Str) : Entry → List (Str × List Str)
  | .file _ => []
  | .dir n ch => (joinP path n, filesOf ch) :: walkChildren (joinP path n) ch

/-- `os.walk` over the children of a directory whose path is `path`. -/
def walkChildren (path : Str) : List Entry → List (Str × List Str)
  | [] => []
  | e :: es => walkEntry path e ++ walkChildren path es
end

/-- Python `os.walk(folder_path)` on the modelled tree, keeping only the
`(dirpath, filenames)` components the script uses (dirnames are ignored by
`convert_md_to_ipynb`).  Top-down order: a directory's own triple precedes
those of its subdirectories. -/
def walk (folder_path : Str) (tree : List Entry) : List (Str × List Str) :=
  (folder_path, filesOf tree) :: walkChildren folder_path tree

/-- The conversion candidates in traversal order: for each `os.walk` triple,
the files whose name ends in `.md`, joined onto the directory path — the
paths bound to `md_path` in the loop body, in the order the loop sees them. -/
def candidates (folder_path : Str) (tree : List Entry) : List Str :=
  (walk folder_path tree).flatMap
    (fun rf => (rf.2.filter (fun file => endswith file (str ".md"))).map (joinP rf.1))

/-- The destination path for one candidate:
`os.path.splitext(md_path)[0] + ".ipynb"`. -/
def ipynbPath (md_path : Str) : Str := (splitext md_path).1 ++ str ".ipynb"

/-- The informational line `print(f"Converting: {md_path} -> {ipynb_path}")`. -/
def convMsg (md_path ipynb_path : Str) : Str :=
  str "Converting: " ++ md_path ++ str " -> " ++ ipynb_path

/-- What the external `notedown` process produces for a given source path:
its standard output, standard error, and exit status. -/
structure ToolResult where
  stdout : Str
  stderr : Str
  exitcode : Int
deriving DecidableEq

/-- Observable side effects of one run, in order. -/
inductive Event where
  | print (line : Str) : Event
  | openW (path : Str) : Event
  | spawn (argv : List Str) : Event
  | write (path : Str) (data : Str) : Event
  | close (path : Str) : Event
deriving DecidableEq

/-- File contents by path, `none` for a path with no file. -/
def FS := Str → Option Str

/-- Overwrite one path in the file store. -/
def FS.upd (σ : FS) (p : Str) (v : Str) : FS :=
  fun q => if q = p then some v else σ q

/-- Outcome of a run: its event trace, whether the traversal completed
without a propagated exception, and the final file store. -/
structure RunResult where
  events : List Event
  completed : Bool
  fs : FS

/-- The five observable effects of one successful conversion, in order:
the informational print, `open(ipynb_path, "w")`, spawning
`notedown md_path`, the child's standard output landing in the destination,
and the `with` block closing the destination. -/
def convBlock (tool : Str → ToolResult) (md_path : Str) : List Event :=
  [.print (convMsg md_path (ipynbPath md_path)),
   .openW (ipynbPath md_path),
   .spawn [str "notedown", md_path],
   .write (ipynbPath md_path) (tool md_path).stdout,
   .close (ipynbPath md_path)]

/-- The loop body of `convert_md_to_ipynb` over the candidate list.

Per candidate: print the informational line; `open(ipynb_path, "w")`
creates/truncates the destination (oracle `openFails` says whether `open`
raises, in which case the exception propagates and the traversal stops);
`subprocess.run(["notedown", md_path], stdout=outfile)` spawns the child
(oracle `spawnFails` says whether `subprocess.run` itself raises, e.g. the
tool is not installed; the `with` block still closes the file), waits for it
and leaves the child's entire standard output in the destination; the `with`
block closes the file and the loop advances. -/
def runConv (tool : Str → ToolResult) (openFails spawnFails : Str → Bool) :
    List Str → FS → RunResult
  | [], σ => ⟨[], true, σ⟩
  | md_path :: rest, σ =>
    let nb := ipynbPath md_path
    if openFails nb then
      ⟨[.print (convMsg md_path nb)], false, σ⟩
    else if spawnFails md_path then
      ⟨[.print (convMsg md_path nb), .openW nb, .close nb], false, σ.upd nb []⟩
    else
      let r := runConv tool openFails spawnFails rest (σ.upd nb (tool md_path).stdout)
      ⟨convBlock tool md_path ++ r.events, r.completed, r.fs⟩

/-- `convert_md_to_ipynb(folder_path)` on the modelled tree `tree`, starting
from file store `σ`, with the external tool and the failure oracles as
parameters.  The function returns `None` in Python; everything it does is
captured by the `RunResult`. -/
def convert_md_to_ipynb (tool : Str → ToolResult) (openFails spawnFails : Str → Bool)
    (folder_path : Str) (tree : List Entry) (σ : FS) : RunResult :=
  runConv tool openFails spawnFails (candidates folder_path tree) σ

/-- The name of an entry. -/
def entryName : Entry → Str
  | .file n => n
  | .dir n _ => n

/-- A name is a valid path component: nonempty and free of `/`. -/
def validName (n : Str) : Bool :=
  decide (n ≠ []) && decide ('/' ∉ n)

mutual
/-- Every name inside the entry is a valid component, and inside every
directory sibling names are distinct (as on a real filesystem). -/
def validEntry : Entry → Bool
  | .file n => validName n
  | .dir n ch => validName n && decide ((ch.map entryName).Nodup) && validEntries ch

/-- `validEntry` holds of every entry of the list. -/
def validEntries : List Entry → Bool
  | [] => true
  | e :: es => validEntry e && validEntries es
end

/-- A valid tree: distinct names at top level and `validEntry` throughout. -/
def ValidTree (es : List Entry) : Bool :=
  decide ((es.map entryName).Nodup) && validEntries es

/-- The oracle of a run in which no `open` and no `subprocess.run` raises. -/
def noFail : Str → Bool := fun _ => false

/-- The full paths the traversal hands to the loop body: every filename of
every `os.walk` triple, joined onto its directory path. -/
def visitedFiles (folder_path : Str) (tree : List Entry) : List Str :=
  (walk folder_path tree).flatMap (fun rf => rf.2.map (joinP rf.1))

mutual
/-- Reference enumeration of the regular files below one entry, with their
full paths, in structural order.  Independent of `os.walk`'s grouping of a
directory's files before its subdirectories. -/
def pathsEntry (path : Str) : Entry → List Str
  | .file n => [joinP path n]
  | .dir n ch => pathsList (joinP path n) ch

/-- Reference enumeration of the regular files below a list of entries. -/
def pathsList (path : Str) : List Entry → List Str
  | [] => []
  | e :: es => pathsEntry path e ++ pathsList path es
end

/-- Modelled from the spec: the output-path rule as the spec words it, with
no special case — "take the candidate's full path, strip its final extension
(the substring from the last `.` to the end of the filename, if any)".
To be compared with the source-derived `splitext`-based rule. -/
def stripLastDot (p : Str) : Str :=
  if (revBasename p).dropWhile (fun c => decide (c ≠ '.')) = [] then p
  else p.take (p.length - (((revBasename p).takeWhile (fun c => decide (c ≠ '.'))).length + 1))

/-- The filename has a dot and some character of it before its last dot is
not itself a dot — the condition under which `os.path.splitext` actually
splits. -/
def hasRealExt (f : Str) : Bool :=
  decide (f.reverse.dropWhile (fun c => decide (c ≠ '.')) ≠ []) &&
    (f.reverse.dropWhile (fun c => decide (c ≠ '.'))).tail.any (fun c => decide (c ≠ '.'))

/-- Left-biased choice on optional file contents. -/
def orO (a b : Option Str) : Option Str :=
  match a with
  | some v => some v
  | none => b

/-- The contents the last conversion writing to path `q` leaves there, if
any candidate's destination is `q`; later candidates take precedence. -/
def finalWrite (tool : Str → ToolResult) (mds : List Str) (q : Str) : Option Str :=
  match mds with
  | [] => none
  | md :: rest =>
    orO (finalWrite tool rest q)
      (if q = ipynbPath md then some (tool md).stdout else none)

/-- The file store after the writes of the candidates `mds`, in order. -/
def writeAll (tool : Str → ToolResult) (mds : List Str) (σ : FS) : FS :=
  match mds with
  | [] => σ
  | md :: rest => writeAll tool rest (σ.upd (ipynbPath md) (tool md).stdout)

/-- The destination paths a run opened, in order. -/
def destPathsOf (r : RunResult) : List Str :=
  r.events.filterMap (fun e => match e with | .openW p => some p | _ => none)

/-- A concrete external tool used to instantiate theorems: constant output. -/
def demoTool : Str → ToolResult := fun _ => ⟨str "nb", [], 0⟩

/-- A second concrete tool: the same standard output as `demoTool` but a
different standard error and a failing exit status. -/
def demoTool2 : Str → ToolResult := fun _ => ⟨str "nb", str "err", 1⟩

/-- A concrete initial file store: empty. -/
def demoFS : FS := fun _ => none

/-- A concrete tree: one Markdown file at top level. -/
def demoTree : List Entry := [Entry.file (str "a.md")]

/-- A concrete tree with two Markdown files at top level. -/
def demoTree2 : List Entry := [Entry.file (str "a.md"), Entry.file (str "b.md")]

/-- A concrete `open`-failure oracle: opening `./a.ipynb` raises. -/
def failA : Str → Bool := fun q => decide (q = str "./a.ipynb")

/-! ### Elementary facts about the path primitives -/

theorem take_one_ne_slash {b : Str} (hb : '/' ∉ b) : b.take 1 ≠ ['/'] := by
  cases b with
  | nil => simp
  | cons c t =>
    simp only [List.take_succ_cons, List.take_zero]
    intro h
    have hc : c = '/' := by simpa using h
    exact hb (hc ▸ List.mem_cons_self c t)

theorem take_one_ne_slash_append {x y : Str} (hx : '/' ∉ x) (hy : y.take 1 ≠ ['/']) :
    (x ++ y).take 1 ≠ ['/'] := by
  cases x with
  | nil => simpa using hy
  | cons c t =>
    simp only [List.cons_append, List.take_succ_cons, List.take_zero]
    intro h
    have hc : c = '/' := by simpa using h
    exact hx (hc ▸ List.mem_cons_self c t)

theorem joinP_eq_dirPre {b : Str} (a : Str) (hb : b.take 1 ≠ ['/']) :
    joinP a b = dirPre a ++ b := by
  unfold joinP dirPre
  split_ifs <;> simp_all

theorem joinP_append {x y : Str} (a : Str) (hx : x.take 1 ≠ ['/'])
    (hxy : (x ++ y).take 1 ≠ ['/']) :
    joinP a x ++ y = joinP a (x ++ y) := by
  rw [joinP_eq_dirPre a hx, joinP_eq_dirPre a hxy, List.append_assoc]

theorem takeWhile_reverse_dirPre (a : Str) :
    ((dirPre a).reverse).takeWhile (fun c => decide (c ≠ '/')) = [] := by
  unfold dirPre
  split_ifs with h1 h2
  · simp
  · have hh : a.reverse.head? = some '/' := by
      rw [← List.getLast?_eq_head?_reverse]; exact h2
    cases hr : a.reverse with
    | nil => rw [hr] at hh; simp at hh
    | cons c t =>
      rw [hr] at hh
      simp only [List.head?_cons, Option.some.injEq] at hh
      subst hh
      simp [List.takeWhile_cons]
  · simp [List.reverse_append, List.takeWhile_cons]

theorem revBasename_eq {f : Str} (hf : '/' ∉ f) : revBasename f = f.reverse := by
  unfold revBasename
  refine List.takeWhile_eq_self_iff.mpr ?_
  intro a ha
  simp only [decide_eq_true_eq]
  intro h
  exact hf (h ▸ List.mem_reverse.mp ha)

theorem revBasename_joinP {f : Str} (a : Str) (hf : '/' ∉ f) :
    revBasename (joinP a f) = f.reverse := by
  rw [joinP_eq_dirPre a (take_one_ne_slash hf)]
  unfold revBasename
  rw [List.reverse_append]
  rw [List.takeWhile_append_of_pos]
  · rw [takeWhile_reverse_dirPre, List.append_nil]
  · intro c hc
    simp only [decide_eq_true_eq]
    intro h
    exact hf (h ▸ List.mem_reverse.mp hc)

theorem extLen_le (rb : Str) : extLen rb ≤ rb.length := by
  unfold extLen
  split_ifs with h1 h2
  · exact Nat.zero_le _
  · have hlen : (rb.takeWhile (fun c => decide (c ≠ '.'))).length +
        (rb.dropWhile (fun c => decide (c ≠ '.'))).length = rb.length := by
      rw [← List.length_append, List.takeWhile_append_dropWhile]
    have hpos : 0 < (rb.dropWhile (fun c => decide (c ≠ '.'))).length :=
      List.length_pos.mpr h1
    omega
  · exact Nat.zero_le _

theorem splitext_joinP {f : Str} (a : Str) (hf : '/' ∉ f) :
    splitext (joinP a f) = (joinP a (splitext f).1, (splitext f).2) := by
  have hrb : revBasename (joinP a f) = f.reverse := revBasename_joinP a hf
  have hrf : revBasename f = f.reverse := revBasename_eq hf
  have hj : joinP a f = dirPre a ++ f := joinP_eq_dirPre a (take_one_ne_slash hf)
  have hn : extLen f.reverse ≤ f.length := by
    simpa using extLen_le f.reverse
  unfold splitext
  rw [hrb, hrf, hj]
  have hL : (dirPre a ++ f).length - extLen f.reverse =
      (dirPre a).length + (f.length - extLen f.reverse) := by
    simp only [List.length_append]; omega
  rw [hL, List.take_append, List.drop_append]
  have hx : '/' ∉ f.take (f.length - extLen f.reverse) :=
    fun h => hf (List.mem_of_mem_take h)
  rw [joinP_eq_dirPre a (take_one_ne_slash hx)]

theorem validName_iff {n : Str} : validName n = true ↔ n ≠ [] ∧ '/' ∉ n := by
  simp [validName]

theorem endswith_iff {s suffix : Str} : endswith s suffix = true ↔ suffix <:+ s := by
  unfold endswith
  simp only [Bool.and_eq_true, decide_eq_true_eq]
  constructor
  · rintro ⟨hle, hdrop⟩
    have ht := List.take_append_drop (s.length - suffix.length) s
    rw [hdrop] at ht
    exact ⟨_, ht⟩
  · rintro ⟨t, rfl⟩
    refine ⟨by simp, ?_⟩
    have hl : (t ++ suffix).length - suffix.length = t.length := by simp
    rw [hl, List.drop_left]

theorem take_one_eq_slash {s : Str} (h : s.take 1 = ['/']) : ∃ t, s = '/' :: t := by
  cases s with
  | nil => simp at h
  | cons c t =>
    simp only [List.take_succ_cons, List.take_zero, List.cons.injEq, and_true] at h
    exact ⟨t, by rw [h]⟩

theorem takeWhile_name {n s : Str} (hn : '/' ∉ n) (hs : s = [] ∨ s.take 1 = ['/']) :
    (n ++ s).takeWhile (fun c => decide (c ≠ '/')) = n := by
  have hs' : s.takeWhile (fun c => decide (c ≠ '/')) = [] := by
    rcases hs with rfl | h
    · simp
    · obtain ⟨t, rfl⟩ := take_one_eq_slash h
      simp [List.takeWhile_cons]
  rw [List.takeWhile_append_of_pos, hs', List.append_nil]
  intro a ha
  simp only [decide_eq_true_eq]
  intro h
  exact hn (h ▸ ha)

theorem dirPre_eq_append_slash (a : Str) (h : dirPre a ≠ []) : ∃ A, dirPre a = A ++ ['/'] := by
  unfold dirPre at h ⊢
  split_ifs at h ⊢ with h1 h2
  · exact absurd rfl h
  · exact List.getLast?_eq_some_iff.mp h2
  · exact ⟨a, rfl⟩

theorem endswith_joinP {f : Str} (a : Str) (hf : '/' ∉ f) :
    endswith (joinP a f) (str ".md") = endswith f (str ".md") := by
  have hj : joinP a f = dirPre a ++ f := joinP_eq_dirPre a (take_one_ne_slash hf)
  rw [hj]
  by_cases hd : dirPre a = []
  · rw [hd, List.nil_append]
  · obtain ⟨A, hA⟩ := dirPre_eq_append_slash a hd
    have h3 : (str ".md").length = 3 := by decide
    refine Bool.coe_iff_coe.mp ?_
    constructor
    · intro h
      obtain ⟨t, ht⟩ := endswith_iff.mp h
      rcases le_or_lt (str ".md").length f.length with hle | hlt
      · exact endswith_iff.mpr
          (List.suffix_of_suffix_length_le ⟨t, ht⟩ (List.suffix_append _ f) hle)
      · exfalso
        have hsuf : ('/' :: f) <:+ dirPre a ++ f := by
          rw [hA, List.append_assoc, List.singleton_append]
          exact List.suffix_append A ('/' :: f)
        have hmem : ('/' :: f) <:+ str ".md" :=
          List.suffix_of_suffix_length_le hsuf ⟨t, ht⟩ (by simp [h3]; omega)
        have : '/' ∈ str ".md" := hmem.subset (List.mem_cons_self _ _)
        exact absurd this (by decide)
    · intro h
      obtain ⟨t, ht⟩ := endswith_iff.mp h
      refine endswith_iff.mpr ⟨dirPre a ++ t, ?_⟩
      rw [List.append_assoc, ht]

theorem splitext_append_ipynb {x : Str} (hx : '/' ∉ x)
    (hnd : x.any (fun c => decide (c ≠ '.')) = true) :
    splitext (x ++ str ".ipynb") = (x, str ".ipynb") := by
  have hy : '/' ∉ str ".ipynb" := by decide
  have hslash : '/' ∉ x ++ str ".ipynb" := by
    intro h
    rcases List.mem_append.mp h with h | h
    · exact hx h
    · exact hy h
  have hrb : revBasename (x ++ str ".ipynb") = ['b','n','y','p','i','.'] ++ x.reverse := by
    rw [revBasename_eq hslash, List.reverse_append]
    rfl
  have hext : extLen (['b','n','y','p','i','.'] ++ x.reverse) = 6 := by
    unfold extLen
    have hdw : (['b','n','y','p','i','.'] ++ x.reverse).dropWhile (fun c => decide (c ≠ '.'))
        = '.' :: x.reverse := by
      simp [List.dropWhile_cons]
    have htw : (['b','n','y','p','i','.'] ++ x.reverse).takeWhile (fun c => decide (c ≠ '.'))
        = ['b','n','y','p','i'] := by
      simp [List.takeWhile_cons]
    rw [hdw, htw]
    rw [if_neg (by simp)]
    simp only [List.tail_cons, List.any_reverse]
    rw [if_pos hnd]
    rfl
  unfold splitext
  rw [hrb, hext]
  have h6 : (str ".ipynb").length = 6 := by decide
  have hlen : (x ++ str ".ipynb").length - 6 = x.length := by
    simp [List.length_append, h6]
  rw [hlen, List.take_left, List.drop_left]

theorem splitext_fst_any {f : Str} (hf : '/' ∉ f) (he : endswith f (str ".md") = true) :
    ((splitext f).1).any (fun c => decide (c ≠ '.')) = true := by
  obtain ⟨t, ht⟩ := endswith_iff.mp he
  have hm : 'm' ∈ f := by
    rw [← ht]
    exact List.mem_append.mpr (Or.inr (by decide))
  unfold splitext
  simp only
  rw [revBasename_eq hf]
  unfold extLen
  split_ifs with h1 h2
  · rw [Nat.sub_zero, List.take_length]
    exact List.any_eq_true.mpr ⟨'m', hm, by decide⟩
  · cases hdw : f.reverse.dropWhile (fun c => decide (c ≠ '.')) with
    | nil => exact absurd hdw h1
    | cons d tl =>
      rw [hdw] at h2
      simp only [List.tail_cons] at h2
      have hsplit : f.reverse.takeWhile (fun c => decide (c ≠ '.')) ++ (d :: tl) = f.reverse := by
        rw [← hdw]
        exact List.takeWhile_append_dropWhile _ _
      have hlen : f.length =
          (f.reverse.takeWhile (fun c => decide (c ≠ '.'))).length + 1 + tl.length := by
        have hl := congrArg List.length hsplit
        simp only [List.length_append, List.length_cons, List.length_reverse] at hl
        omega
      have harith : f.length - ((f.reverse.takeWhile (fun c => decide (c ≠ '.'))).length + 1)
          = tl.length := by omega
      rw [harith]
      have hfr2 : f = tl.reverse ++
          (d :: (f.reverse.takeWhile (fun c => decide (c ≠ '.'))).reverse) := by
        have hfr : f = (f.reverse.takeWhile (fun c => decide (c ≠ '.')) ++ (d :: tl)).reverse := by
          rw [hsplit, List.reverse_reverse]
        conv_lhs => rw [hfr]
        simp [List.reverse_append]
      rw [hfr2, List.take_left' (by simp), List.any_reverse]
      exact h2
  · rw [Nat.sub_zero, List.take_length]
    exact List.any_eq_true.mpr ⟨'m', hm, by decide⟩

/-! ### Validity propagated through the traversal -/

theorem validEntries_cons {e : Entry} {es : List Entry} (h : validEntries (e :: es) = true) :
    validEntry e = true ∧ validEntries es = true := by
  simpa only [validEntries, Bool.and_eq_true] using h

theorem validEntry_file {n : Str} (h : validEntry (Entry.file n) = true) :
    validName n = true := by
  simpa only [validEntry] using h

theorem validEntry_dir {n : Str} {ch : List Entry} (h : validEntry (Entry.dir n ch) = true) :
    validName n = true ∧ (ch.map entryName).Nodup ∧ validEntries ch = true := by
  simpa only [validEntry, Bool.and_eq_true, decide_eq_true_eq, and_assoc] using h

theorem filesOf_valid {es : List Entry} (hv : validEntries es = true) :
    ∀ f ∈ filesOf es, validName f = true := by
  induction es with
  | nil => intro f hf; simp [filesOf] at hf
  | cons e es ih =>
    obtain ⟨he, hes⟩ := validEntries_cons hv
    cases e with
    | file n =>
      intro f hf
      rcases List.mem_cons.mp hf with rfl | hf'
      · exact validEntry_file he
      · exact ih hes f hf'
    | dir n ch =>
      intro f hf
      exact ih hes f hf

mutual
theorem walkEntry_files_valid (r : Str) (e : Entry) (hv : validEntry e = true) :
    ∀ rf ∈ walkEntry r e, ∀ f ∈ rf.2, validName f = true := by
  cases e with
  | file n => intro rf hrf; simp [walkEntry] at hrf
  | dir n ch =>
    intro rf hrf
    obtain ⟨-, -, hch⟩ := validEntry_dir hv
    rw [walkEntry] at hrf
    rcases List.mem_cons.mp hrf with rfl | hrf'
    · exact fun f hf => filesOf_valid hch f hf
    · exact walkChildren_files_valid (joinP r n) ch hch rf hrf'

theorem walkChildren_files_valid (r : Str) (es : List Entry) (hv : validEntries es = true) :
    ∀ rf ∈ walkChildren r es, ∀ f ∈ rf.2, validName f = true := by
  cases es with
  | nil => intro rf hrf; simp [walkChildren] at hrf
  | cons e es =>
    intro rf hrf
    obtain ⟨he, hes⟩ := validEntries_cons hv
    rw [walkChildren] at hrf
    rcases List.mem_append.mp hrf with h | h
    · exact walkEntry_files_valid r e he rf h
    · exact walkChildren_files_valid r es hes rf h
end

theorem walk_files_valid {tree : List Entry} (fp : Str) (hv : ValidTree tree = true) :
    ∀ rf ∈ walk fp tree, ∀ f ∈ rf.2, validName f = true := by
  have h2 : validEntries tree = true := by
    simp only [ValidTree, Bool.and_eq_true] at hv
    exact hv.2
  intro rf hrf
  rw [walk] at hrf
  rcases List.mem_cons.mp hrf with rfl | h
  · exact fun f hf => filesOf_valid h2 f hf
  · exact walkChildren_files_valid fp tree h2 rf h

theorem mem_candidates_iff {fp : Str} {tree : List Entry} {p : Str} :
    p ∈ candidates fp tree ↔
      ∃ rf ∈ walk fp tree, ∃ f ∈ rf.2, endswith f (str ".md") = true ∧ p = joinP rf.1 f := by
  unfold candidates
  constructor
  · intro hp
    obtain ⟨rf, hrf, hmem⟩ := List.mem_flatMap.mp hp
    obtain ⟨f, hf, rfl⟩ := List.mem_map.mp hmem
    obtain ⟨hf2, he⟩ := List.mem_filter.mp hf
    exact ⟨rf, hrf, f, hf2, he, rfl⟩
  · rintro ⟨rf, hrf, f, hf, he, rfl⟩
    exact List.mem_flatMap.mpr ⟨rf, hrf, List.mem_map.mpr ⟨f, List.mem_filter.mpr ⟨hf, he⟩, rfl⟩⟩

theorem candidates_endswith {fp : Str} {tree : List Entry} (hv : ValidTree tree = true) :
    ∀ p ∈ candidates fp tree, endswith p (str ".md") = true := by
  intro p hp
  obtain ⟨rf, hrf, f, hf, he, rfl⟩ := mem_candidates_iff.mp hp
  have hvf := walk_files_valid fp hv rf hrf f hf
  obtain ⟨hne, hslash⟩ := validName_iff.mp hvf
  rw [endswith_joinP rf.1 hslash]
  exact he

/-! ### Facts about one run -/

theorem runConv_nofail_events (tool : Str → ToolResult) (mds : List Str) (σ : FS) :
    (runConv tool noFail noFail mds σ).events = mds.flatMap (convBlock tool) := by
  induction mds generalizing σ with
  | nil => rfl
  | cons md rest ih => simp [runConv, noFail, ih]

theorem runConv_nofail_completed (tool : Str → ToolResult) (mds : List Str) (σ : FS) :
    (runConv tool noFail noFail mds σ).completed = true := by
  induction mds generalizing σ with
  | nil => rfl
  | cons md rest ih => simp [runConv, noFail, ih]

theorem runConv_fs (tool : Str → ToolResult) (mds : List Str) (σ : FS) (q : Str) :
    (runConv tool noFail noFail mds σ).fs q = orO (finalWrite tool mds q) (σ q) := by
  induction mds generalizing σ with
  | nil => rfl
  | cons md rest ih =>
    simp only [runConv, noFail, if_false, Bool.false_eq_true]
    rw [ih]
    simp only [finalWrite, FS.upd]
    by_cases hq : q = ipynbPath md
    · cases finalWrite tool rest q <;> simp [orO, hq]
    · cases finalWrite tool rest q <;> simp [orO, hq]

theorem mem_finalWrite {tool : Str → ToolResult} {mds : List Str} {md : Str} (h : md ∈ mds) :
    finalWrite tool mds (ipynbPath md) ≠ none := by
  induction mds with
  | nil => simp at h
  | cons a rest ih =>
    simp only [finalWrite]
    rcases List.mem_cons.mp h with rfl | h'
    · rw [if_pos rfl]
      cases finalWrite tool rest (ipynbPath md) <;> simp [orO]
    · have hne := ih h'
      cases hfw : finalWrite tool rest (ipynbPath md) with
      | none => exact absurd hfw hne
      | some w => simp [orO]

theorem runConv_spawn_iff (tool : Str → ToolResult) (mds : List Str) (σ : FS)
    (argv : List Str) :
    Event.spawn argv ∈ (runConv tool noFail noFail mds σ).events ↔
      ∃ md ∈ mds, argv = [str "notedown", md] := by
  rw [runConv_nofail_events]
  simp only [List.mem_flatMap, convBlock, List.mem_cons, List.not_mem_nil, or_false]
  constructor
  · rintro ⟨md, hmd, h⟩
    rcases h with h | h | h | h | h <;> first
      | (exact ⟨md, hmd, by injection h⟩)
      | (exact absurd h (by simp))
  · rintro ⟨md, hmd, rfl⟩
    exact ⟨md, hmd, by simp⟩

theorem runConv_write_shape (tool : Str → ToolResult) (mds : List Str) (σ : FS)
    (q d : Str) :
    Event.write q d ∈ (runConv tool noFail noFail mds σ).events →
      ∃ md ∈ mds, q = ipynbPath md ∧ d = (tool md).stdout := by
  rw [runConv_nofail_events]
  simp only [List.mem_flatMap, convBlock, List.mem_cons, List.not_mem_nil, or_false]
  rintro ⟨md, hmd, h⟩
  rcases h with h | h | h | h | h <;> first
    | (refine ⟨md, hmd, ?_⟩; injection h with h1 h2; exact ⟨h1, h2⟩)
    | (exact absurd h (by simp))

theorem runConv_openW_paths (tool : Str → ToolResult) (mds : List Str) (σ : FS) :
    (runConv tool noFail noFail mds σ).events.filterMap
        (fun e => match e with | .openW p => some p | _ => none) =
      mds.map ipynbPath := by
  rw [runConv_nofail_events]
  induction mds with
  | nil => rfl
  | cons md rest ih => simp [convBlock, ih]

theorem flatMap_block_mid {tool : Str → ToolResult} {md : Str} {mds : List Str}
    (h : md ∈ mds) :
    ∃ l₁ l₂, mds.flatMap (convBlock tool) = l₁ ++ (convBlock tool md ++ l₂) := by
  induction mds with
  | nil => simp at h
  | cons a rest ih =>
    rcases List.mem_cons.mp h with rfl | h'
    · exact ⟨[], rest.flatMap (convBlock tool), by simp⟩
    · obtain ⟨l₁, l₂, hl⟩ := ih h'
      exact ⟨convBlock tool a ++ l₁, l₂, by simp [hl]⟩

theorem runConv_halt (tool : Str → ToolResult) (openFails spawnFails : Str → Bool)
    (pre : List Str) (md : Str) (post : List Str) (σ : FS)
    (hpre : ∀ c ∈ pre, openFails (ipynbPath c) = false ∧ spawnFails c = false)
    (hmd : openFails (ipynbPath md) = true) :
    runConv tool openFails spawnFails (pre ++ md :: post) σ =
      ⟨pre.flatMap (convBlock tool) ++ [Event.print (convMsg md (ipynbPath md))], false,
       writeAll tool pre σ⟩ := by
  induction pre generalizing σ with
  | nil => simp [runConv, hmd, writeAll]
  | cons a rest ih =>
    have ha := hpre a (List.mem_cons_self a rest)
    have hrest : ∀ c ∈ rest, openFails (ipynbPath c) = false ∧ spawnFails c = false :=
      fun c hc => hpre c (List.mem_cons_of_mem a hc)
    have hih := ih (σ.upd (ipynbPath a) (tool a).stdout) hrest
    simp [runConv, ha.1, ha.2, writeAll, hih]

theorem runConv_blocks (tool : Str → ToolResult) (openFails spawnFails : Str → Bool)
    (mds : List Str) (σ : FS) :
    ∃ blocks : List (List Event),
      (runConv tool openFails spawnFails mds σ).events = blocks.flatten ∧
      ∀ b ∈ blocks, ∃ md ∈ mds,
        b = [Event.print (convMsg md (ipynbPath md))] ∨
        b = [Event.print (convMsg md (ipynbPath md)), Event.openW (ipynbPath md),
             Event.close (ipynbPath md)] ∨
        b = convBlock tool md := by
  induction mds generalizing σ with
  | nil => exact ⟨[], rfl, by simp⟩
  | cons md rest ih =>
    by_cases ho : openFails (ipynbPath md) = true
    · refine ⟨[[Event.print (convMsg md (ipynbPath md))]], by simp [runConv, ho], ?_⟩
      intro b hb
      rcases List.mem_cons.mp hb with rfl | hb'
      · exact ⟨md, List.mem_cons_self md rest, Or.inl rfl⟩
      · simp at hb'
    · by_cases hs : spawnFails md = true
      · refine ⟨[[Event.print (convMsg md (ipynbPath md)), Event.openW (ipynbPath md),
            Event.close (ipynbPath md)]], by simp [runConv, ho, hs], ?_⟩
        intro b hb
        rcases List.mem_cons.mp hb with rfl | hb'
        · exact ⟨md, List.mem_cons_self md rest, Or.inr (Or.inl rfl)⟩
        · simp at hb'
      · obtain ⟨blocks, hbl, hprop⟩ := ih (σ.upd (ipynbPath md) (tool md).stdout)
        refine ⟨convBlock tool md :: blocks, ?_, ?_⟩
        · simp only [runConv, Bool.not_eq_true] at ho hs ⊢
          simp [ho, hs, hbl]
        · intro b hb
          rcases List.mem_cons.mp hb with rfl | hb'
          · exact ⟨md, List.mem_cons_self md rest, Or.inr (Or.inr rfl)⟩
          · obtain ⟨md', hm', hsh⟩ := hprop b hb'
            exact ⟨md', List.mem_cons_of_mem md hm', hsh⟩

theorem runConv_tool_agnostic (tool₁ tool₂ : Str → ToolResult)
    (h : ∀ p, (tool₁ p).stdout = (tool₂ p).stdout) (mds : List Str) (σ : FS) :
    runConv tool₁ noFail noFail mds σ = runConv tool₂ noFail noFail mds σ := by
  induction mds generalizing σ with
  | nil => rfl
  | cons md rest ih => simp [runConv, noFail, convBlock, h md, ih]

/-! ### The traversal visits each regular file exactly once -/

theorem walkChildren_perm (r : Str) (es : List Entry) :
    List.Perm
      ((filesOf es).map (joinP r) ++
        (walkChildren r es).flatMap (fun rf => rf.2.map (joinP rf.1)))
      (pathsList r es) := by
  match es with
  | [] => simp [filesOf, walkChildren, pathsList]
  | .file n :: es' =>
    have ih := walkChildren_perm r es'
    simp only [filesOf, walkChildren, walkEntry, List.map_cons, List.cons_append,
      List.nil_append, pathsList, pathsEntry, List.singleton_append]
    exact ih.cons (joinP r n)
  | .dir n ch :: es' =>
    have ihc := walkChildren_perm (joinP r n) ch
    have ih := walkChildren_perm r es'
    simp only [filesOf, walkChildren, walkEntry, pathsList, pathsEntry,
      List.flatMap_append, List.flatMap_cons, List.cons_append, List.nil_append]
    refine List.Perm.trans ?_ (ihc.append ih)
    rw [List.append_assoc]
    exact (List.perm_append_comm_assoc _ _ _).trans
      (List.Perm.append_left _ (List.perm_append_comm_assoc _ _ _))

theorem visitedFiles_perm (fp : Str) (tree : List Entry) :
    List.Perm (visitedFiles fp tree) (pathsList fp tree) := by
  have h := walkChildren_perm fp tree
  unfold visitedFiles walk
  simpa using h

theorem validEntry_name {e : Entry} (hv : validEntry e = true) :
    validName (entryName e) = true := by
  cases e with
  | file n => exact validEntry_file hv
  | dir n ch => exact (validEntry_dir hv).1

theorem dirPre_joinP {n : Str} (r : Str) (hn : validName n = true) :
    dirPre (joinP r n) = dirPre r ++ n ++ ['/'] := by
  obtain ⟨hne, hsl⟩ := validName_iff.mp hn
  rw [joinP_eq_dirPre r (take_one_ne_slash hsl)]
  generalize dirPre r = A
  have h1 : A ++ n ≠ [] := by simp [hne]
  have h2 : (A ++ n).getLast? ≠ some '/' := by
    rw [List.getLast?_append_of_ne_nil _ hne]
    intro h
    exact hsl (List.mem_of_mem_getLast? h)
  unfold dirPre
  rw [if_neg h1, if_neg h2]

mutual
theorem pathsEntry_shape (r : Str) (e : Entry) (hv : validEntry e = true) :
    ∀ p ∈ pathsEntry r e, ∃ s, (s = [] ∨ s.take 1 = ['/']) ∧
      p = dirPre r ++ (entryName e ++ s) := by
  cases e with
  | file n =>
    intro p hp
    obtain ⟨hne, hsl⟩ := validName_iff.mp (validEntry_file hv)
    rw [pathsEntry] at hp
    rcases List.mem_cons.mp hp with rfl | h
    · refine ⟨[], Or.inl rfl, ?_⟩
      rw [joinP_eq_dirPre r (take_one_ne_slash hsl), List.append_nil]
      rfl
    · simp at h
  | dir n ch =>
    intro p hp
    obtain ⟨hn, hnd, hch⟩ := validEntry_dir hv
    rw [pathsEntry] at hp
    obtain ⟨n', s', hn', hvn', hs', hp'⟩ := pathsList_shape (joinP r n) ch hch p hp
    refine ⟨'/' :: (n' ++ s'), Or.inr rfl, ?_⟩
    rw [hp', dirPre_joinP r hn]
    simp [List.append_assoc, entryName]

theorem pathsList_shape (r : Str) (es : List Entry) (hv : validEntries es = true) :
    ∀ p ∈ pathsList r es, ∃ n s, n ∈ es.map entryName ∧ validName n = true ∧
      (s = [] ∨ s.take 1 = ['/']) ∧ p = dirPre r ++ (n ++ s) := by
  cases es with
  | nil => intro p hp; rw [pathsList] at hp; simp at hp
  | cons e es' =>
    intro p hp
    obtain ⟨he, hes⟩ := validEntries_cons hv
    rw [pathsList] at hp
    rcases List.mem_append.mp hp with h | h
    · obtain ⟨s, hs, hps⟩ := pathsEntry_shape r e he p h
      exact ⟨entryName e, s, by simp, validEntry_name he, hs, hps⟩
    · obtain ⟨n, s, hn, hvn, hs, hps⟩ := pathsList_shape r es' hes p h
      exact ⟨n, s, by simp [hn], hvn, hs, hps⟩
end

theorem name_of_shape {n₁ n₂ s₁ s₂ : Str} (h1 : validName n₁ = true) (h2 : validName n₂ = true)
    (hs1 : s₁ = [] ∨ s₁.take 1 = ['/']) (hs2 : s₂ = [] ∨ s₂.take 1 = ['/'])
    (h : n₁ ++ s₁ = n₂ ++ s₂) : n₁ = n₂ := by
  have e1 := takeWhile_name (validName_iff.mp h1).2 hs1
  have e2 := takeWhile_name (validName_iff.mp h2).2 hs2
  rw [← e1, ← e2, h]

mutual
theorem pathsEntry_nodup (r : Str) (e : Entry) (hv : validEntry e = true) :
    (pathsEntry r e).Nodup := by
  cases e with
  | file n => rw [pathsEntry]; simp
  | dir n ch =>
    obtain ⟨-, hnd, hch⟩ := validEntry_dir hv
    rw [pathsEntry]
    exact pathsList_nodup (joinP r n) ch hnd hch

theorem pathsList_nodup (r : Str) (es : List Entry) (hnd : (es.map entryName).Nodup)
    (hv : validEntries es = true) : (pathsList r es).Nodup := by
  cases es with
  | nil => rw [pathsList]; simp
  | cons e es' =>
    obtain ⟨he, hes⟩ := validEntries_cons hv
    rw [List.map_cons] at hnd
    obtain ⟨hhead, htail⟩ := List.nodup_cons.mp hnd
    rw [pathsList, List.nodup_append]
    refine ⟨pathsEntry_nodup r e he, pathsList_nodup r es' htail hes, ?_⟩
    intro p hp hp'
    obtain ⟨s, hs, hps⟩ := pathsEntry_shape r e he p hp
    obtain ⟨n', s', hn', hvn', hs', hps'⟩ := pathsList_shape r es' hes p hp'
    have hcat : dirPre r ++ (entryName e ++ s) = dirPre r ++ (n' ++ s') := by
      rw [← hps, ← hps']
    have heq := List.append_cancel_left hcat
    have hname : entryName e = n' := name_of_shape (validEntry_name he) hvn' hs hs' heq
    exact hhead (by rw [hname]; exact hn')
end

theorem visitedFiles_nodup (fp : Str) (tree : List Entry) (hv : ValidTree tree = true) :
    (visitedFiles fp tree).Nodup := by
  simp only [ValidTree, Bool.and_eq_true, decide_eq_true_eq] at hv
  exact ((visitedFiles_perm fp tree).symm).nodup (pathsList_nodup fp tree hv.1 hv.2)

theorem runConv_fs_written {tool : Str → ToolResult} {mds : List Str} {σ : FS} {md : Str}
    (h : md ∈ mds) :
    (runConv tool noFail noFail mds σ).fs (ipynbPath md) ≠ none := by
  rw [runConv_fs]
  cases hfw : finalWrite tool mds (ipynbPath md) with
  | none => exact absurd hfw (mem_finalWrite h)
  | some w => simp [orO]

theorem ipynbPath_joinP {f : Str} (root : Str) (hf : '/' ∉ f) :
    ipynbPath (joinP root f) = joinP root ((splitext f).1 ++ str ".ipynb") := by
  unfold ipynbPath
  rw [splitext_joinP root hf]
  have hx : '/' ∉ (splitext f).1 := fun h => hf (List.mem_of_mem_take h)
  exact joinP_append root (take_one_ne_slash hx)
    (take_one_ne_slash_append hx (by decide))

/-! ### The claims -/

/-- C1: for every regular file under the root whose name ends in `.md`, after
`convert_md_to_ipynb` completes (no failure oracle fires), the final file
store contains a sibling file in the same directory whose name has the same
base name as the source and extension `.ipynb`. -/
theorem C1_md_coverage (tool : Str → ToolResult) (fp : Str) (tree : List Entry) (σ : FS)
    (hv : ValidTree tree = true) :
    ∀ rf ∈ walk fp tree, ∀ f ∈ rf.2, endswith f (str ".md") = true →
      ∃ g content,
        (convert_md_to_ipynb tool noFail noFail fp tree σ).fs (joinP rf.1 g) = some content ∧
        (splitext g).1 = (splitext f).1 ∧ (splitext g).2 = str ".ipynb" := by
  intro rf hrf f hf he
  have hvf := walk_files_valid fp hv rf hrf f hf
  obtain ⟨hne, hsl⟩ := validName_iff.mp hvf
  have hx : '/' ∉ (splitext f).1 := fun h => hsl (List.mem_of_mem_take h)
  have hany := splitext_fst_any hsl he
  have hsibl : splitext ((splitext f).1 ++ str ".ipynb") = ((splitext f).1, str ".ipynb") :=
    splitext_append_ipynb hx hany
  have hmem : joinP rf.1 f ∈ candidates fp tree :=
    mem_candidates_iff.mpr ⟨rf, hrf, f, hf, he, rfl⟩
  have hw := @runConv_fs_written tool (candidates fp tree) σ _ hmem
  rw [ipynbPath_joinP rf.1 hsl] at hw
  obtain ⟨content, hcontent⟩ := Option.ne_none_iff_exists'.mp hw
  exact ⟨(splitext f).1 ++ str ".ipynb", content, hcontent,
    by rw [hsibl], by rw [hsibl]⟩

/-- C1 witness: a tree holding `a.md` at the root `.`, with a concrete
external tool and empty initial file store. -/
theorem C1_md_coverage_witness :
    ∃ g content,
      (convert_md_to_ipynb demoTool noFail noFail (str ".") demoTree demoFS).fs
          (joinP (str ".") g) = some content ∧
      (splitext g).1 = (splitext (str "a.md")).1 ∧ (splitext g).2 = str ".ipynb" :=
  C1_md_coverage demoTool (str ".") demoTree demoFS (by decide)
    (str ".", [str "a.md"]) (by decide) (str "a.md") (by decide) (by decide)

/-- C2: a file is selected as a conversion candidate iff its name ends with
the literal, case-sensitive `.md`; every spawned subprocess targets a
candidate, every write lands at a candidate's derived destination, and a
non-`.md` file's path is never handed to the converter. -/
theorem C2_filter (tool : Str → ToolResult) (fp : Str) (tree : List Entry) (σ : FS)
    (hv : ValidTree tree = true) :
    (∀ p, p ∈ candidates fp tree ↔
        ∃ rf ∈ walk fp tree, ∃ f ∈ rf.2, endswith f (str ".md") = true ∧ p = joinP rf.1 f) ∧
    (∀ argv, Event.spawn argv ∈ (convert_md_to_ipynb tool noFail noFail fp tree σ).events ↔
        ∃ md ∈ candidates fp tree, argv = [str "notedown", md]) ∧
    (∀ q d, Event.write q d ∈ (convert_md_to_ipynb tool noFail noFail fp tree σ).events →
        ∃ md ∈ candidates fp tree, q = ipynbPath md ∧ d = (tool md).stdout) ∧
    (∀ rf ∈ walk fp tree, ∀ f ∈ rf.2, endswith f (str ".md") = false →
        Event.spawn [str "notedown", joinP rf.1 f] ∉
          (convert_md_to_ipynb tool noFail noFail fp tree σ).events) := by
  refine ⟨fun p => mem_candidates_iff,
    fun argv => runConv_spawn_iff tool (candidates fp tree) σ argv,
    fun q d => runConv_write_shape tool (candidates fp tree) σ q d, ?_⟩
  intro rf hrf f hf hfalse hspawn
  obtain ⟨md, hmd, hargv⟩ :=
    (runConv_spawn_iff tool (candidates fp tree) σ _).mp hspawn
  have hjoin : joinP rf.1 f = md := by
    simpa using hargv
  have hmdtrue := candidates_endswith hv md hmd
  rw [← hjoin] at hmdtrue
  have hvf := walk_files_valid fp hv rf hrf f hf
  rw [endswith_joinP rf.1 (validName_iff.mp hvf).2, hfalse] at hmdtrue
  cases hmdtrue

/-- C2 witness: the tree holding only `a.md`; its candidate list, the spawn
events of the run and the non-candidacy of a non-`.md` name are all
instantiated concretely. -/
theorem C2_filter_witness :
    (∀ p, p ∈ candidates (str ".") demoTree ↔
        ∃ rf ∈ walk (str ".") demoTree, ∃ f ∈ rf.2,
          endswith f (str ".md") = true ∧ p = joinP rf.1 f) ∧
    (∀ argv,
        Event.spawn argv ∈
            (convert_md_to_ipynb demoTool noFail noFail (str ".") demoTree demoFS).events ↔
        ∃ md ∈ candidates (str ".") demoTree, argv = [str "notedown", md]) ∧
    (∀ q d, Event.write q d ∈
            (convert_md_to_ipynb demoTool noFail noFail (str ".") demoTree demoFS).events →
        ∃ md ∈ candidates (str ".") demoTree, q = ipynbPath md ∧ d = (demoTool md).stdout) ∧
    (∀ rf ∈ walk (str ".") demoTree, ∀ f ∈ rf.2, endswith f (str ".md") = false →
        Event.spawn [str "notedown", joinP rf.1 f] ∉
          (convert_md_to_ipynb demoTool noFail noFail (str ".") demoTree demoFS).events) :=
  C2_filter demoTool (str ".") demoTree demoFS (by decide)

/-- C3 counterexample: the claim's rule — strip the substring from the last
`.` of the filename and append `.ipynb` — fails on the candidate `.md`
(selected, since its name ends in `.md`): the code derives `r/.md.ipynb`,
while stripping from the last dot would give `r/.ipynb`. -/
theorem C3_output_path_cex :
    endswith (str ".md") (str ".md") = true ∧
    candidates (str "r") [Entry.file (str ".md")] = [str "r/.md"] ∧
    ipynbPath (str "r/.md") = str "r/.md.ipynb" ∧
    stripLastDot (str "r/.md") ++ str ".ipynb" = str "r/.ipynb" ∧
    str "r/.md.ipynb" ≠ str "r/.ipynb" := by decide

/-- C3 (amended): for a candidate whose filename has a dot preceded by some
non-dot character, the derived output path is the full path with the
substring from the last `.` of the filename stripped, plus `.ipynb`
(`stripLastDot` is the spec's rule verbatim); for any other candidate —
a filename whose characters before its last dot are all dots, such as `.md`
— nothing is stripped and `.ipynb` is appended to the whole path.  In
particular `archive.tar.md` derives `archive.tar.ipynb`: only the final
extension is replaced. -/
theorem C3_output_path (r f : Str) (hf : validName f = true) :
    (hasRealExt f = true →
      ipynbPath (joinP r f) = stripLastDot (joinP r f) ++ str ".ipynb") ∧
    (hasRealExt f = false → ipynbPath (joinP r f) = joinP r f ++ str ".ipynb") ∧
    ipynbPath (joinP r (str "archive.tar.md")) = joinP r (str "archive.tar.ipynb") := by
  obtain ⟨hne, hsl⟩ := validName_iff.mp hf
  have hrb := revBasename_joinP r hsl
  refine ⟨?_, ?_, ?_⟩
  · intro hre
    simp only [hasRealExt, Bool.and_eq_true, decide_eq_true_eq] at hre
    have hext : extLen f.reverse =
        (f.reverse.takeWhile (fun c => decide (c ≠ '.'))).length + 1 := by
      unfold extLen
      rw [if_neg hre.1, if_pos hre.2]
    unfold ipynbPath splitext stripLastDot
    simp only
    rw [hrb, hext, if_neg hre.1]
  · intro hre
    unfold hasRealExt at hre
    have hext : extLen f.reverse = 0 := by
      unfold extLen
      by_cases h1 : f.reverse.dropWhile (fun c => decide (c ≠ '.')) = []
      · rw [if_pos h1]
      · have hd : decide (f.reverse.dropWhile (fun c => decide (c ≠ '.')) ≠ []) = true := by
          simpa using h1
        rw [hd, Bool.true_and] at hre
        have hcond : ¬((f.reverse.dropWhile (fun c => decide (c ≠ '.'))).tail.any
            (fun c => decide (c ≠ '.')) = true) := by
          rw [hre]
          simp
        rw [if_neg h1, if_neg hcond]
    unfold ipynbPath splitext
    simp only
    rw [hrb, hext, Nat.sub_zero, List.take_length]
  · have hsl2 : '/' ∉ str "archive.tar.md" := by decide
    unfold ipynbPath
    rw [splitext_joinP r hsl2]
    have hsp : splitext (str "archive.tar.md") = (str "archive.tar", str ".md") := by decide
    rw [hsp]
    have h1 : (str "archive.tar").take 1 ≠ ['/'] := by decide
    have h2 : (str "archive.tar" ++ str ".ipynb").take 1 ≠ ['/'] := by decide
    rw [joinP_append r h1 h2]
    have h3 : str "archive.tar" ++ str ".ipynb" = str "archive.tar.ipynb" := by decide
    rw [h3]

/-- C3 (amended) witness: the filename `archive.tar.md`, which has a real
extension. -/
theorem C3_output_path_witness :
    (hasRealExt (str "archive.tar.md") = true →
      ipynbPath (joinP (str "r") (str "archive.tar.md")) =
        stripLastDot (joinP (str "r") (str "archive.tar.md")) ++ str ".ipynb") ∧
    (hasRealExt (str "archive.tar.md") = false →
      ipynbPath (joinP (str "r") (str "archive.tar.md")) =
        joinP (str "r") (str "archive.tar.md") ++ str ".ipynb") ∧
    ipynbPath (joinP (str "r") (str "archive.tar.md")) =
      joinP (str "r") (str "archive.tar.ipynb")  :=
  C3_output_path (str "r") (str "archive.tar.md") (by decide)

/-- C4: the traversal hands the loop body exactly the regular files of the
subtree: the visited paths are a permutation of the structural enumeration of
the tree's regular files (every file at any depth, once per file node), and
on a valid tree (component names nonempty, slash-free, siblings distinct) no
path is visited twice. -/
theorem C4_traversal (fp : Str) (tree : List Entry) :
    List.Perm (visitedFiles fp tree) (pathsList fp tree) ∧
    (ValidTree tree = true → (visitedFiles fp tree).Nodup) :=
  ⟨visitedFiles_perm fp tree, visitedFiles_nodup fp tree⟩

/-- C5: per candidate, the run's trace contains the contiguous five-event
segment — informational print naming source and destination, open of the
destination, spawn of `notedown` with the candidate's path as its single
positional argument, the child's whole standard output written to the
destination, close — and every spawn in the trace has exactly that two-word
argument vector for some candidate. -/
theorem C5_per_candidate (tool : Str → ToolResult) (fp : Str) (tree : List Entry) (σ : FS) :
    (∀ md ∈ candidates fp tree, ∃ l₁ l₂,
        (convert_md_to_ipynb tool noFail noFail fp tree σ).events =
          l₁ ++ ([Event.print (convMsg md (ipynbPath md)), Event.openW (ipynbPath md),
            Event.spawn [str "notedown", md], Event.write (ipynbPath md) (tool md).stdout,
            Event.close (ipynbPath md)] ++ l₂)) ∧
    (∀ argv, Event.spawn argv ∈ (convert_md_to_ipynb tool noFail noFail fp tree σ).events →
        ∃ md ∈ candidates fp tree, argv = [str "notedown", md]) := by
  constructor
  · intro md hmd
    obtain ⟨l₁, l₂, hl⟩ := @flatMap_block_mid tool md (candidates fp tree) hmd
    refine ⟨l₁, l₂, ?_⟩
    unfold convert_md_to_ipynb
    rw [runConv_nofail_events, hl]
    rfl
  · intro argv h
    exact (runConv_spawn_iff tool (candidates fp tree) σ argv).mp h

/-- C6: `convert_md_to_ipynb` returns nothing beyond its effects, and a run
with no raising `open`/`subprocess.run` completes the full traversal whatever
the child processes do: two tools with the same standard output — however
their exit statuses and standard error differ — give byte-identical runs,
and the traversal always reports completion. -/
theorem C6_ignores_exit (tool₁ tool₂ : Str → ToolResult) (fp : Str) (tree : List Entry)
    (σ : FS) (h : ∀ p, (tool₁ p).stdout = (tool₂ p).stdout) :
    convert_md_to_ipynb tool₁ noFail noFail fp tree σ =
      convert_md_to_ipynb tool₂ noFail noFail fp tree σ ∧
    (convert_md_to_ipynb tool₁ noFail noFail fp tree σ).completed = true :=
  ⟨runConv_tool_agnostic tool₁ tool₂ h (candidates fp tree) σ,
   runConv_nofail_completed tool₁ (candidates fp tree) σ⟩

/-- C6 witness: `demoTool` exits 0 with empty stderr, `demoTool2` exits 1
with nonempty stderr; their runs on `a.md` coincide. -/
theorem C6_ignores_exit_witness :
    convert_md_to_ipynb demoTool noFail noFail (str ".") demoTree demoFS =
      convert_md_to_ipynb demoTool2 noFail noFail (str ".") demoTree demoFS ∧
    (convert_md_to_ipynb demoTool noFail noFail (str ".") demoTree demoFS).completed = true :=
  C6_ignores_exit demoTool demoTool2 (str ".") demoTree demoFS (fun _ => rfl)

/-- C7: if `open` raises on some candidate's destination, the exception
propagates: the trace holds exactly the completed conversions of the earlier
candidates plus the failing candidate's informational line, the run does not
complete, and no candidate after the failing one is ever spawned. -/
theorem C7_open_error_halts (tool : Str → ToolResult) (openFails spawnFails : Str → Bool)
    (fp : Str) (tree : List Entry) (σ : FS) (pre : List Str) (md : Str) (post : List Str)
    (hsplit : candidates fp tree = pre ++ md :: post)
    (hpre : ∀ c ∈ pre, openFails (ipynbPath c) = false ∧ spawnFails c = false)
    (hmd : openFails (ipynbPath md) = true) :
    (convert_md_to_ipynb tool openFails spawnFails fp tree σ).events =
      pre.flatMap (convBlock tool) ++ [Event.print (convMsg md (ipynbPath md))] ∧
    (convert_md_to_ipynb tool openFails spawnFails fp tree σ).completed = false ∧
    ∀ c, Event.spawn [str "notedown", c] ∈
        (convert_md_to_ipynb tool openFails spawnFails fp tree σ).events → c ∈ pre := by
  have h := runConv_halt tool openFails spawnFails pre md post σ hpre hmd
  unfold convert_md_to_ipynb
  rw [hsplit, h]
  refine ⟨rfl, rfl, ?_⟩
  intro c hc
  simp only [List.mem_append, List.mem_singleton] at hc
  rcases hc with hc | hc
  · obtain ⟨md', hmd', hin⟩ := List.mem_flatMap.mp hc
    simp only [convBlock, List.mem_cons, List.not_mem_nil, or_false] at hin
    rcases hin with h' | h' | h' | h' | h'
    · exact absurd h' (by simp)
    · exact absurd h' (by simp)
    · have : c = md' := by simpa using h'
      rw [this]
      exact hmd'
    · exact absurd h' (by simp)
    · exact absurd h' (by simp)
  · exact absurd hc (by simp)

/-- C7 witness: two candidates `./a.md`, `./b.md`; opening the first
destination `./a.ipynb` fails, so only its print line is emitted, the run is
incomplete and `./b.md` is never spawned. -/
theorem C7_open_error_halts_witness :
    (convert_md_to_ipynb demoTool failA noFail (str ".") demoTree2 demoFS).events =
      ([] : List Str).flatMap (convBlock demoTool) ++
        [Event.print (convMsg (str "./a.md") (ipynbPath (str "./a.md")))] ∧
    (convert_md_to_ipynb demoTool failA noFail (str ".") demoTree2 demoFS).completed = false ∧
    ∀ c, Event.spawn [str "notedown", c] ∈
        (convert_md_to_ipynb demoTool failA noFail (str ".") demoTree2 demoFS).events →
      c ∈ ([] : List Str) :=
  C7_open_error_halts demoTool failA noFail (str ".") demoTree2 demoFS
    [] (str "./a.md") [str "./b.md"] (by decide) (by simp) (by decide)

/-- C8: the destination paths of a run do not depend on the pre-existing
file store — in particular a second run over the same tree opens exactly the
same paths, each silently truncated and overwritten — they are exactly the
candidates' derived paths, and running the converter twice leaves the same
file store as running it once. -/
theorem C8_idempotent (tool : Str → ToolResult) (fp : Str) (tree : List Entry)
    (σ₁ σ₂ : FS) :
    destPathsOf (convert_md_to_ipynb tool noFail noFail fp tree σ₁) =
      destPathsOf (convert_md_to_ipynb tool noFail noFail fp tree σ₂) ∧
    destPathsOf (convert_md_to_ipynb tool noFail noFail fp tree σ₁) =
      (candidates fp tree).map ipynbPath ∧
    ∀ q, (convert_md_to_ipynb tool noFail noFail fp tree
          ((convert_md_to_ipynb tool noFail noFail fp tree σ₁).fs)).fs q =
        (convert_md_to_ipynb tool noFail noFail fp tree σ₁).fs q := by
  unfold convert_md_to_ipynb destPathsOf
  refine ⟨?_, ?_, ?_⟩
  · rw [runConv_openW_paths, runConv_openW_paths]
  · rw [runConv_openW_paths]
  · intro q
    rw [runConv_fs, runConv_fs]
    cases finalWrite tool (candidates fp tree) q <;> simp [orO]

/-- C9: processing is fully sequential with guaranteed release: whatever the
failure oracles do, the trace decomposes into consecutive per-candidate
segments — the open-failure segment, the spawn-failure segment (open, then
close on the exceptional exit), or the successful five-event segment — and
in every segment each opened destination is closed as the segment's last
event, before the next candidate's events begin. -/
theorem C9_sequential (tool : Str → ToolResult) (openFails spawnFails : Str → Bool)
    (fp : Str) (tree : List Entry) (σ : FS) :
    ∃ blocks : List (List Event),
      (convert_md_to_ipynb tool openFails spawnFails fp tree σ).events = blocks.flatten ∧
      (∀ b ∈ blocks, ∃ md ∈ candidates fp tree,
        b = [Event.print (convMsg md (ipynbPath md))] ∨
        b = [Event.print (convMsg md (ipynbPath md)), Event.openW (ipynbPath md),
             Event.close (ipynbPath md)] ∨
        b = convBlock tool md) ∧
      (∀ b ∈ blocks, ∀ p, Event.openW p ∈ b → b.getLast? = some (Event.close p)) := by
  obtain ⟨blocks, hbl, hprop⟩ :=
    runConv_blocks tool openFails spawnFails (candidates fp tree) σ
  refine ⟨blocks, hbl, hprop, ?_⟩
  intro b hb p hp
  obtain ⟨md, hmd, hsh⟩ := hprop b hb
  rcases hsh with rfl | rfl | rfl
  · simp at hp
  · simp only [List.mem_cons, List.not_mem_nil, or_false] at hp
    rcases hp with h | h | h
    · exact absurd h (by simp)
    · have : p = ipynbPath md := by simpa using h
      rw [this]
      rfl
    · exact absurd h (by simp)
  · simp only [convBlock, List.mem_cons, List.not_mem_nil, or_false] at hp
    rcases hp with h | h | h | h | h
    · exact absurd h (by simp)
    · have : p = ipynbPath md := by simpa using h
      rw [this]
      rfl
    · exact absurd h (by simp)
    · exact absurd h (by simp)
    · exact absurd h (by simp)

/-- C10: a file named exactly `.md` is selected for conversion (its name
ends in `.md`), yet `os.path.splitext` treats the leading-dot name as having
no extension: nothing is stripped and the derived destination is the source
path with `.ipynb` appended after the full name, as the run's final file
store confirms. -/
theorem C10_dotfile (r : Str) (tool : Str → ToolResult) (σ : FS) :
    endswith (str ".md") (str ".md") = true ∧
    ipynbPath (joinP r (str ".md")) = joinP r (str ".md") ++ str ".ipynb" ∧
    (convert_md_to_ipynb tool noFail noFail r [Entry.file (str ".md")] σ).fs
        (joinP r (str ".md") ++ str ".ipynb") = some (tool (joinP r (str ".md"))).stdout := by
  have hsl : '/' ∉ str ".md" := by decide
  have hsp : splitext (str ".md") = (str ".md", []) := by decide
  have hip : ipynbPath (joinP r (str ".md")) = joinP r (str ".md") ++ str ".ipynb" := by
    unfold ipynbPath
    rw [splitext_joinP r hsl, hsp]
  refine ⟨by decide, hip, ?_⟩
  have hc : candidates r [Entry.file (str ".md")] = [joinP r (str ".md")] := by
    simp [candidates, walk, walkChildren, walkEntry, filesOf,
      (by decide : endswith (str ".md") (str ".md") = true)]
  unfold convert_md_to_ipynb
  rw [hc, ← hip, runConv_fs]
  simp [finalWrite, orO]
